import Mathlib

/-!
Shallow embedding of the gologloki Loki log-shipping adapter
(src/gologloki.go, src/gologloki_config.go, src/gologloki_types.go).

Go maps (`map[string]string`) are modelled as association lists kept
sorted by key, with last-write-wins assignment (`setLabel`): a Go map is
determined by its final key/value pairs, and the sorted list is its
canonical form (json.Marshal of a Go string map also emits keys in
sorted order).  Durations are modelled as natural numbers of
nanoseconds, timestamps as integers (UnixNano), and the HTTP backend as
an oracle `send : Nat → Bool` giving the outcome of each attempt.
-/

namespace Gologloki

/-- Modelled from the spec: the upstream golog facade is an external
collaborator (not under src/); a severity level carries a numeric rank
used by `Level.IsEnabled` ("the record's severity is below the
configured minimum") and a display name returned by `Level.String`. -/
structure Level where
  rank : Nat
  name : String
deriving DecidableEq, Repr

/-- Modelled from the spec: `golog.Level.IsEnabled` — a record passes the
filter iff its severity is not below the configured minimum. -/
def Level.isEnabled (min l : Level) : Bool :=
  min.rank ≤ l.rank

/-- `golog.Level.String()`. -/
def Level.string (l : Level) : String :=
  l.name

/-- The closed variant of Go field values distinguished by
`convertToString`'s type switch (src/gologloki.go:110-125).  Floats are
carried as integer micro-units (value × 10⁶) so `%f` (six fixed decimal
digits) is exact; `other` covers every non-primitive Go value, carrying
its JSON encoding when `json.Marshal` would succeed on it. -/
inductive FieldValue where
  | str (s : String)
  | int (n : Int)
  | float (micros : Int)
  | bool (b : Bool)
  | other (json : Option String)
deriving DecidableEq, Repr

/-- Left-pad a numeral string with zeros to six digits (the fractional
part of `%f`). -/
def padSix (s : String) : String :=
  String.mk (List.replicate (6 - s.length) '0') ++ s

/-- `fmt.Sprintf("%f", v)`: sign, integer part, then fixed six digits
after the decimal point, on a float modelled as integer micro-units. -/
def formatFloat (micros : Int) : String :=
  (if micros < 0 then "-" else "") ++
    toString (micros.natAbs / 1000000) ++ "." ++
    padSix (toString (micros.natAbs % 1000000))

/-- `convertToString` (src/gologloki.go:110-125): stringify a primitive
field value; `none` models the `("", false)` fallthrough. -/
def convertToString : FieldValue → Option String
  | .str s => some s
  | .int n => some (toString n)
  | .float m => some (formatFloat m)
  | .bool b => some (if b then "true" else "false")
  | .other _ => none

/-- Strict lexicographic order on character lists (comparing code
points, which for UTF-8 agrees with Go's byte-wise key order). -/
def charListLt : List Char → List Char → Bool
  | [], [] => false
  | [], _ :: _ => true
  | _ :: _, [] => false
  | a :: as, b :: bs =>
    if a.toNat < b.toNat then true
    else if b.toNat < a.toNat then false
    else charListLt as bs

/-- Strict lexicographic order on strings, the order `json.Marshal`
sorts the keys of a Go string map in. -/
def strLt (a b : String) : Bool :=
  charListLt a.data b.data

/-- A Go `map[string]string` in canonical form: association list sorted
by key.  `setLabel` is map assignment `m[k] = v` — it overwrites the
entry at `k` when present and inserts in key order otherwise. -/
def setLabel : List (String × String) → String → String → List (String × String)
  | [], k, v => [(k, v)]
  | (k', v') :: rest, k, v =>
    if strLt k k' then (k, v) :: (k', v') :: rest
    else if k = k' then (k, v) :: rest
    else (k', v') :: setLabel rest k v

/-- Copy every pair of `src` into `m` by map assignment (the
`for k, v := range ...` copy loops in `Log`). -/
def copyLabels (m : List (String × String)) (src : List (String × String)) :
    List (String × String) :=
  src.foldl (fun acc kv => setLabel acc kv.1 kv.2) m

/-- The incoming `golog.Log` record (external shape, consumed by `Log`):
timestamp, severity, message, structured fields, logger name with its
presence flag, and optional error text (`Data.Error.Error()`). -/
structure LogRecord where
  timestamp : Int
  level : Level
  message : String
  fields : List (String × FieldValue)
  name : String
  withName : Bool
  error : Option String
deriving DecidableEq, Repr

/-- `lokiLogEntry` (src/gologloki_types.go). -/
structure lokiLogEntry where
  timestamp : Int
  line : String
  level : String
  labels : List (String × String)
deriving DecidableEq, Repr

/-- `LokiConfig` (src/gologloki_config.go).  Durations in nanoseconds;
`retryCount` is a Go `int`, hence `Int`. -/
structure LokiConfig where
  enable : Bool
  level : Level
  url : String
  labels : List (String × String)
  batchSize : Nat
  batchInterval : Nat
  retryCount : Int
  retryDelay : Nat
  timeout : Nat
deriving Repr

/-- `Format` (src/gologloki.go:102-107): when a name is present, wrap it
as `[<name>]: `, store the wrapped form back into the record's name
field, and prepend it to the message. -/
def Format (log : LogRecord) : LogRecord :=
  if log.name ≠ "" then
    let newName := "[" ++ log.name ++ "]: "
    { log with name := newName, message := newName ++ log.message }
  else
    log

/-- The field-promotion loop of `Log` (src/gologloki.go:47-53): each
field whose value converts to a string is assigned into the label map. -/
def promoteFields (labels : List (String × String))
    (fields : List (String × FieldValue)) : List (String × String) :=
  fields.foldl
    (fun acc kv =>
      match convertToString kv.2 with
      | some s => setLabel acc kv.1 s
      | none => acc)
    labels

/-- The full label derivation of `Log` (src/gologloki.go:40-59): start
from an empty map, copy the static labels, promote primitive fields,
add `logger_name` when the record carries a name, then set `level`. -/
def buildLabels (cfg : LokiConfig) (log : LogRecord) : List (String × String) :=
  let labels := copyLabels [] cfg.labels
  let labels := promoteFields labels log.fields
  let labels :=
    if log.withName && log.name ≠ "" then setLabel labels "logger_name" log.name
    else labels
  setLabel labels "level" log.level.string

/-- Minimal JSON string escaping (backslash and double quote); enough to
keep the encoding injective on the strings the model ranges over. -/
def jsonEscape (s : String) : String :=
  String.join (s.data.map fun c =>
    if c = '\\' then "\\\\" else if c = '"' then "\\\"" else String.mk [c])

/-- JSON encoding of a single field value, as `json.Marshal` renders the
corresponding Go value (`none` = marshalling error).  Only `.other`
values can reach this from `Log`: every primitive field was already
promoted into the label map, so its key is filtered out of `jsonFields`.
Go renders float64 in shortest-decimal form; the unreachable `.float`
branch reuses the fixed-point form. -/
def jsonEncodeValue : FieldValue → Option String
  | .str s => some ("\"" ++ jsonEscape s ++ "\"")
  | .int n => some (toString n)
  | .float m => some (formatFloat m)
  | .bool b => some (if b then "true" else "false")
  | .other j => j

/-- Insert a field into a list sorted by key (Go marshals a map with its
keys in sorted order). -/
def insertFieldSorted (p : String × FieldValue) :
    List (String × FieldValue) → List (String × FieldValue)
  | [] => [p]
  | q :: rest => if strLt q.1 p.1 then q :: insertFieldSorted p rest else p :: q :: rest

/-- Sort a field list by key, the order `json.Marshal` uses for a map. -/
def sortFields (l : List (String × FieldValue)) : List (String × FieldValue) :=
  l.foldr insertFieldSorted []

/-- `json.Marshal` of the `jsonFields` map: a JSON object with keys in
sorted order; fails (returns `none`) iff some value fails to marshal. -/
def jsonEncodeFields (fields : List (String × FieldValue)) : Option String :=
  (fields.mapM fun kv =>
      (jsonEncodeValue kv.2).map fun v => "\"" ++ jsonEscape kv.1 ++ "\":" ++ v).map
    fun parts => "\x7b" ++ String.intercalate "," parts ++ "\x7d"

/-- The line construction of `Log` (src/gologloki.go:61-92): the
(already formatted) message; `" - "` and `"Error: "` plus the error text
when an error is present (the `" - "` separator only when the buffer is
non-empty); then `" | "` plus the compact JSON of the fields whose key
is *not* in the label map, when that set is non-empty and marshals. -/
def buildLine (log : LogRecord) (labels : List (String × String)) : String :=
  let buf := log.message
  let buf :=
    match log.error with
    | none => buf
    | some e => (if 0 < buf.length then buf ++ " - " else buf) ++ "Error: " ++ e
  let jsonFields := log.fields.filter fun kv => (labels.lookup kv.1) = none
  if jsonFields.isEmpty then buf
  else
    match jsonEncodeFields (sortFields jsonFields) with
    | some j => (if 0 < buf.length then buf ++ " | " else buf) ++ j
    | none => buf

/-- The entry-construction part of `Log` (src/gologloki.go:30-92): drop
the record when the adapter is disabled or the severity filtered,
otherwise format it and build the `lokiLogEntry` that is offered to the
queue. -/
def formatEntry (cfg : LokiConfig) (log0 : LogRecord) : Option lokiLogEntry :=
  if !cfg.enable || !(cfg.level.isEnabled log0.level) then none
  else
    let log := Format log0
    let labels := buildLabels cfg log
    some
      { timestamp := log.timestamp
        level := log.level.string
        labels := labels
        line := buildLine log labels }

/-- The adapter's mutable state: the ingest channel (with its fixed
capacity), the accumulator buffer, and the last-flush instant
(src/gologloki.go:14-27). -/
structure AdapterState where
  queueCap : Nat
  queue : List lokiLogEntry
  buffer : List lokiLogEntry
  lastFlush : Int
deriving DecidableEq, Repr

/-- `Log` (src/gologloki.go:30-99) as a state transition: the formatted
entry is enqueued by the non-blocking `select`; when the channel is full
the entry is dropped and a diagnostic printed (the returned flag records
that the overflow diagnostic fired). -/
def Log (cfg : LokiConfig) (st : AdapterState) (log : LogRecord) :
    AdapterState × Bool :=
  match formatEntry cfg log with
  | none => (st, false)
  | some e =>
    if st.queue.length < st.queueCap then
      ({ st with queue := st.queue ++ [e] }, false)
    else
      (st, true)

/-- The state set up by `NewLokiAdapter` (src/gologloki.go:266-290):
channel capacity `cfg.BatchSize*10`, empty buffer, `lastFlush = now`. -/
def newAdapterState (cfg : LokiConfig) (now : Int) : AdapterState :=
  { queueCap := cfg.batchSize * 10
    queue := []
    buffer := []
    lastFlush := now }

/-- What one call of `sendWithRetry` did: its returned outcome, how many
`send` attempts it made, and the durations it slept, in order. -/
structure SendTrace where
  ok : Bool
  attempts : Nat
  sleeps : List Nat
deriving DecidableEq, Repr

/-- One entry into the loop body of `sendWithRetry`
(src/gologloki.go:221-232) with the given attempt counter: when the
guard `attempt <= retryCount` holds, the body sleeps
`retryDelay * attempt` if `attempt > 0` and then *unconditionally*
returns the outcome of `send`; so the loop back-edge is unreachable.
When the guard fails, the code after the loop prints a diagnostic and
returns `true`. -/
def sendLoopIter (cfg : LokiConfig) (send : Nat → Bool) (attempt : Nat)
    (sleeps : List Nat) : SendTrace :=
  if (attempt : Int) ≤ cfg.retryCount then
    let sleeps := if 0 < attempt then sleeps ++ [cfg.retryDelay * attempt] else sleeps
    { ok := send attempt, attempts := attempt + 1, sleeps := sleeps }
  else
    { ok := true, attempts := attempt, sleeps := sleeps }

/-- `sendWithRetry` (src/gologloki.go:221-232), run against a backend
oracle `send` giving the outcome of each numbered attempt. -/
def sendWithRetry (cfg : LokiConfig) (send : Nat → Bool) : SendTrace :=
  sendLoopIter cfg send 0 []

/-- `lokiStream` (src/gologloki_types.go). -/
structure lokiStream where
  stream : List (String × String)
  values : List (String × String)
deriving DecidableEq, Repr

/-- `lokiPayload` (src/gologloki_types.go). -/
structure lokiPayload where
  streams : List lokiStream
deriving DecidableEq, Repr

/-- The `[2]string{fmt.Sprintf("%d", ts.UnixNano()), entry.Line}` value
pair (src/gologloki.go:196-200). -/
def entryValue (e : lokiLogEntry) : String × String :=
  (toString e.timestamp, e.line)

/-- One iteration of the grouping loop of `flush`
(src/gologloki.go:180-203): look up the stream keyed by the entry's
label set, append the value pair, store it back.  Go keys the map by
`string(json.Marshal(entry.Labels))`, which is injective on string maps
and so partitions exactly by label-map equality; our label maps are
canonical sorted lists, so the list itself serves as the key.  A string
map never fails to marshal, so the skip-on-error branch is dead. -/
def addEntry (streams : List lokiStream) (e : lokiLogEntry) : List lokiStream :=
  match streams with
  | [] => [{ stream := e.labels, values := [entryValue e] }]
  | s :: rest =>
    if s.stream = e.labels then
      { s with values := s.values ++ [entryValue e] } :: rest
    else
      s :: addEntry rest e

/-- The Stream Grouper of `flush` (src/gologloki.go:178-211).  Go
iterates the `streams` map in unspecified order to build the payload
slice; the model fixes first-arrival order among streams (the claims
leave cross-stream order unconstrained). -/
def groupStreams (buf : List lokiLogEntry) : List lokiStream :=
  buf.foldl addEntry []

/-- `flush` (src/gologloki.go:167-218): return immediately on an empty
buffer; otherwise snapshot-and-clear the buffer, group it into streams,
send with retry, and record `lastFlush = now` only on success.  The
second component reports the payload handed to the Sender (`none` = no
send happened). -/
def flush (cfg : LokiConfig) (send : Nat → Bool) (now : Int)
    (st : AdapterState) : AdapterState × Option lokiPayload :=
  if st.buffer.length = 0 then (st, none)
  else
    let bufferCopy := st.buffer
    let st1 := { st with buffer := [] }
    let payload : lokiPayload := { streams := groupStreams bufferCopy }
    if (sendWithRetry cfg send).ok then
      ({ st1 with lastFlush := now }, some payload)
    else
      (st1, some payload)

/-- Keys of the label map of an assoc-list map. -/
def keysOf (m : List (String × String)) : List String :=
  m.map Prod.fst

/-- Sortedness invariant of the canonical label maps: keys strictly
increasing in `strLt`. -/
def labelsSorted (m : List (String × String)) : Prop :=
  m.Pairwise fun p q => strLt p.1 q.1 = true

/-- The distinct label sets of a buffer, in first-arrival order — the
key set of the `streams` map built by `flush`. -/
def streamKeys (buf : List lokiLogEntry) : List (List (String × String)) :=
  buf.foldl (fun ks e => if e.labels ∈ ks then ks else ks ++ [e.labels]) []

/- Concrete inputs used by witnesses and counterexamples. -/

/-- A sample severity. -/
def lvlDebug : Level :=
  { rank := 0, name := "debug" }

/-- A sample configuration with static label `a=1` (the defaults of
`defaultLokiConfig` except for the label, sizes kept small). -/
def cfgEx : LokiConfig :=
  { enable := true
    level := lvlDebug
    url := "http://loki"
    labels := [("a", "1")]
    batchSize := 100
    batchInterval := 5
    retryCount := 3
    retryDelay := 7
    timeout := 10 }

/-- A record carrying the structured field `a=2`. -/
def recField : LogRecord :=
  { timestamp := 7, level := lvlDebug, message := "hi"
    fields := [("a", .int 2)], name := "", withName := false, error := none }

/-- A record with logger name `svc`. -/
def recNamed : LogRecord :=
  { timestamp := 7, level := lvlDebug, message := "hi"
    fields := [], name := "svc", withName := true, error := none }

/-- A record with an empty message and an associated error. -/
def recErr : LogRecord :=
  { timestamp := 7, level := lvlDebug, message := ""
    fields := [], name := "", withName := false, error := some "boom" }

/-- A record with a non-empty message and an associated error. -/
def recMsgErr : LogRecord :=
  { timestamp := 7, level := lvlDebug, message := "msg"
    fields := [], name := "", withName := false, error := some "boom" }

/-- A backend oracle that fails the first attempt and would succeed on
every later one. -/
def sendFailFirst : Nat → Bool :=
  fun n => decide (n ≠ 0)

/-- A backend oracle that always fails. -/
def sendFalse : Nat → Bool :=
  fun _ => false

/-- Sample entries for grouping: `entA` and `entC` share one label set,
`entB` differs in a single label value. -/
def entA : lokiLogEntry :=
  { timestamp := 1, line := "one", level := "debug", labels := [("a", "1"), ("level", "debug")] }

/-- See `entA`. -/
def entB : lokiLogEntry :=
  { timestamp := 2, line := "two", level := "debug", labels := [("a", "2"), ("level", "debug")] }

/-- See `entA`. -/
def entC : lokiLogEntry :=
  { timestamp := 3, line := "three", level := "debug", labels := [("a", "1"), ("level", "debug")] }

/-- A sample buffer. -/
def bufEx : List lokiLogEntry :=
  [entA, entB, entC]

/-- The stream `bufEx`'s first label set should map to. -/
def streamEx : lokiStream :=
  { stream := [("a", "1"), ("level", "debug")]
    values := [("1", "one"), ("3", "three")] }

/-- A full adapter state whose queue is at capacity. -/
def stFull : AdapterState :=
  { queueCap := 1, queue := [entA], buffer := [], lastFlush := 0 }

/-- An adapter state with an empty buffer. -/
def stEmptyBuf : AdapterState :=
  { queueCap := 1000, queue := [entA, entB], buffer := [], lastFlush := 41 }

/-- `cfgEx` with the adapter disabled. -/
def cfgDisabled : LokiConfig :=
  { cfgEx with enable := false }

/-- A record carrying a structured field named `level`. -/
def recLevel : LogRecord :=
  { timestamp := 7, level := lvlDebug, message := "hi"
    fields := [("level", .str "x")], name := "", withName := false, error := none }

/-- The entry `formatEntry cfgEx recLevel` produces. -/
def entLevelEx : lokiLogEntry :=
  { timestamp := 7, line := "hi", level := "debug"
    labels := [("a", "1"), ("level", "debug")] }

/-- The entry `formatEntry cfgEx recField` produces: the field value
overwrote the static label `a`. -/
def entFieldEx : lokiLogEntry :=
  { timestamp := 7, line := "hi", level := "debug"
    labels := [("a", "2"), ("level", "debug")] }

/-- The entry `formatEntry cfgEx recNamed` produces: `logger_name`
carries the wrapped name. -/
def entNamedEx : lokiLogEntry :=
  { timestamp := 7, line := "[svc]: hi", level := "debug"
    labels := [("a", "1"), ("level", "debug"), ("logger_name", "[svc]: ")] }

/-- The entry `formatEntry cfgEx recMsgErr` produces. -/
def entMsgErrEx : lokiLogEntry :=
  { timestamp := 7, line := "msg - Error: boom", level := "debug"
    labels := [("a", "1"), ("level", "debug")] }

/-! ### Order lemmas for the key comparison -/

theorem charListLt_irrefl (l : List Char) : charListLt l l = false := by
  induction l with
  | nil => rfl
  | cons a as ih => simp [charListLt, ih]

theorem charListLt_asymm :
    ∀ a b : List Char, charListLt a b = true → charListLt b a = false := by
  intro a
  induction a with
  | nil =>
    intro b h
    cases b with
    | nil => simp [charListLt] at h
    | cons c cs => simp [charListLt]
  | cons x xs ih =>
    intro b h
    cases b with
    | nil => simp [charListLt] at h
    | cons y ys =>
      simp only [charListLt] at h ⊢
      by_cases h1 : x.toNat < y.toNat
      · have h2 : ¬ y.toNat < x.toNat := by omega
        simp [h1, h2]
      · by_cases h2 : y.toNat < x.toNat
        · simp [h1, h2] at h
        · simp [h1, h2] at h ⊢
          exact ih ys h

theorem charListLt_trans :
    ∀ a b c : List Char,
      charListLt a b = true → charListLt b c = true → charListLt a c = true := by
  intro a
  induction a with
  | nil =>
    intro b c hab hbc
    cases c with
    | nil =>
      cases b with
      | nil => exact hab
      | cons y ys => simp [charListLt] at hbc
    | cons z zs => simp [charListLt]
  | cons x xs ih =>
    intro b c hab hbc
    cases b with
    | nil => simp [charListLt] at hab
    | cons y ys =>
      cases c with
      | nil => simp [charListLt] at hbc
      | cons z zs =>
        simp only [charListLt] at hab hbc ⊢
        by_cases hxy : x.toNat < y.toNat
        · by_cases hyz : y.toNat < z.toNat
          · simp [show x.toNat < z.toNat by omega]
          · by_cases hzy : z.toNat < y.toNat
            · simp [hyz, hzy] at hbc
            · simp [show x.toNat < z.toNat by omega]
        · by_cases hyx : y.toNat < x.toNat
          · simp [hxy, hyx] at hab
          · by_cases hyz : y.toNat < z.toNat
            · simp [show x.toNat < z.toNat by omega]
            · by_cases hzy : z.toNat < y.toNat
              · simp [hyz, hzy] at hbc
              · have hxz : ¬ x.toNat < z.toNat := by omega
                have hzx : ¬ z.toNat < x.toNat := by omega
                simp [hxy, hyx] at hab
                simp [hyz, hzy] at hbc
                simp [hxz, hzx]
                exact ih ys zs hab hbc

theorem charListLt_connect :
    ∀ a b : List Char,
      charListLt a b = false → charListLt b a = false → a = b := by
  intro a
  induction a with
  | nil =>
    intro b hab _
    cases b with
    | nil => rfl
    | cons y ys => simp [charListLt] at hab
  | cons x xs ih =>
    intro b hab hba
    cases b with
    | nil => simp [charListLt] at hba
    | cons y ys =>
      simp only [charListLt] at hab hba
      by_cases hxy : x.toNat < y.toNat
      · simp [hxy] at hab
      · by_cases hyx : y.toNat < x.toNat
        · simp [hxy, hyx] at hba
        · simp [hxy, hyx] at hab hba
          have hn : x.toNat = y.toNat := by omega
          have hx : x = y := by
            apply Char.eq_of_val_eq
            apply UInt32.eq_of_val_eq
            exact Fin.ext hn
          rw [hx, ih ys hab hba]

theorem strLt_irrefl (s : String) : strLt s s = false :=
  charListLt_irrefl s.data

theorem strLt_asymm {a b : String} (h : strLt a b = true) : strLt b a = false :=
  charListLt_asymm a.data b.data h

theorem strLt_trans {a b c : String}
    (hab : strLt a b = true) (hbc : strLt b c = true) : strLt a c = true :=
  charListLt_trans a.data b.data c.data hab hbc

theorem strLt_connect {a b : String}
    (hab : strLt a b = false) (hba : strLt b a = false) : a = b :=
  String.ext (charListLt_connect a.data b.data hab hba)

/-! ### Label-map lemmas -/

theorem lookup_mem {l : List (String × String)} {q v : String}
    (h : l.lookup q = some v) : (q, v) ∈ l := by
  induction l with
  | nil => simp [List.lookup] at h
  | cons p rest ih =>
    obtain ⟨k, w⟩ := p
    by_cases hq : q = k
    · subst hq
      simp [List.lookup_cons] at h
      simp [h]
    · simp [List.lookup_cons, beq_false_of_ne hq] at h
      exact List.mem_cons_of_mem _ (ih h)

theorem lookup_eq_none {l : List (String × String)} {q : String}
    (h : ∀ p ∈ l, p.1 ≠ q) : l.lookup q = none := by
  induction l with
  | nil => rfl
  | cons p rest ih =>
    obtain ⟨k, w⟩ := p
    have hk : q ≠ k := fun e => h (k, w) (List.mem_cons_self _ _) e.symm
    have ht : List.lookup q rest = none :=
      ih fun p hp => h p (List.mem_cons_of_mem _ hp)
    simp [List.lookup_cons, beq_false_of_ne hk, ht]

theorem lookup_setLabel_self (m : List (String × String)) (k v : String) :
    (setLabel m k v).lookup k = some v := by
  induction m with
  | nil => simp [setLabel, List.lookup_cons]
  | cons p rest ih =>
    obtain ⟨k', v'⟩ := p
    simp only [setLabel]
    split
    · simp [List.lookup_cons]
    · split
      · simp [List.lookup_cons]
      · next h1 h2 =>
        simp [List.lookup_cons, beq_false_of_ne h2, ih]

theorem lookup_setLabel_ne (m : List (String × String)) (k v q : String)
    (h : q ≠ k) : (setLabel m k v).lookup q = m.lookup q := by
  induction m with
  | nil => simp [setLabel, List.lookup_cons, beq_false_of_ne h]
  | cons p rest ih =>
    obtain ⟨k', v'⟩ := p
    simp only [setLabel]
    split
    · simp [List.lookup_cons, beq_false_of_ne h]
    · split
      · next h1 h2 =>
        subst h2
        simp [List.lookup_cons, beq_false_of_ne h]
      · next h1 h2 =>
        by_cases hq : q = k'
        · subst hq
          simp [List.lookup_cons]
        · simp [List.lookup_cons, beq_false_of_ne hq, ih]

theorem keysOf_setLabel (m : List (String × String)) (k v : String) :
    ∀ p ∈ setLabel m k v, p.1 = k ∨ p.1 ∈ keysOf m := by
  induction m with
  | nil =>
    intro p hp
    simp only [setLabel, List.mem_singleton] at hp
    subst hp
    simp
  | cons hd rest ih =>
    obtain ⟨k', v'⟩ := hd
    intro p hp
    simp only [setLabel] at hp
    split at hp
    · rcases List.mem_cons.mp hp with h | h
      · subst h; simp
      · right
        simp only [keysOf, List.map_cons, List.mem_cons]
        rcases List.mem_cons.mp h with h' | h'
        · subst h'; simp
        · right; exact List.mem_map_of_mem Prod.fst h'
    · split at hp
      · rcases List.mem_cons.mp hp with h | h
        · subst h; simp
        · right
          simp only [keysOf, List.map_cons, List.mem_cons]
          right; exact List.mem_map_of_mem Prod.fst h
      · rcases List.mem_cons.mp hp with h | h
        · subst h
          right
          simp [keysOf]
        · rcases ih p h with h' | h'
          · left; exact h'
          · right
            simp only [keysOf, List.map_cons, List.mem_cons]
            right
            simpa [keysOf] using h'

theorem labelsSorted_setLabel (m : List (String × String)) (k v : String)
    (h : labelsSorted m) : labelsSorted (setLabel m k v) := by
  induction m with
  | nil => simp [setLabel, labelsSorted]
  | cons hd rest ih =>
    obtain ⟨k', v'⟩ := hd
    have h1 := (List.pairwise_cons.mp h).1
    have h2 : labelsSorted rest := (List.pairwise_cons.mp h).2
    simp only [setLabel]
    split
    · next hlt =>
      exact List.Pairwise.cons
        (fun q hq => by
          rcases List.mem_cons.mp hq with h' | h'
          · subst h'; exact hlt
          · exact strLt_trans hlt (h1 q h'))
        h
    · split
      · next hlt heq =>
        subst heq
        exact List.Pairwise.cons h1 h2
      · next hlt heq =>
        have hgt : strLt k' k = true := by
          by_contra hc
          exact heq (strLt_connect (Bool.eq_false_iff.mpr hlt) (Bool.eq_false_iff.mpr hc))
        exact List.Pairwise.cons
          (fun q hq => by
            rcases keysOf_setLabel rest k v q hq with h' | h'
            · rw [h']; exact hgt
            · simp only [keysOf, List.mem_map] at h'
              obtain ⟨p, hp, hpe⟩ := h'
              have hr := h1 p hp
              rwa [hpe] at hr)
          (ih h2)

theorem labelsSorted_ext {m₁ m₂ : List (String × String)}
    (hs₁ : labelsSorted m₁) (hs₂ : labelsSorted m₂)
    (h : ∀ q, m₁.lookup q = m₂.lookup q) : m₁ = m₂ := by
  induction m₁ generalizing m₂ with
  | nil =>
    cases m₂ with
    | nil => rfl
    | cons p t =>
      obtain ⟨k, v⟩ := p
      have hk := h k
      simp [List.lookup, List.lookup_cons] at hk
  | cons p t ih =>
    obtain ⟨k₁, v₁⟩ := p
    have h11 := (List.pairwise_cons.mp hs₁).1
    have h12 : labelsSorted t := (List.pairwise_cons.mp hs₁).2
    cases m₂ with
    | nil =>
      have hk := h k₁
      simp [List.lookup, List.lookup_cons] at hk
    | cons q t₂ =>
      obtain ⟨k₂, v₂⟩ := q
      have h21 := (List.pairwise_cons.mp hs₂).1
      have h22 : labelsSorted t₂ := (List.pairwise_cons.mp hs₂).2
      have hk : k₁ = k₂ := by
        by_contra hne
        have e1 := h k₁
        have e2 := h k₂
        simp [List.lookup_cons, beq_false_of_ne hne,
          beq_false_of_ne (Ne.symm hne)] at e1 e2
        have hm1 : (k₁, v₁) ∈ t₂ := lookup_mem e1.symm
        have hm2 : (k₂, v₂) ∈ t := lookup_mem e2
        have hlt1 : strLt k₂ k₁ = true := h21 (k₁, v₁) hm1
        have hlt2 : strLt k₁ k₂ = true := h11 (k₂, v₂) hm2
        rw [strLt_asymm hlt2] at hlt1
        exact Bool.false_ne_true hlt1
      subst hk
      have hv : v₁ = v₂ := by
        have e := h k₁
        simpa [List.lookup_cons] using e
      subst hv
      congr 1
      refine ih h12 h22 fun q => ?_
      by_cases hq : q = k₁
      · subst hq
        have e1 : t.lookup q = none :=
          lookup_eq_none fun p hp e =>
            Bool.false_ne_true ((strLt_irrefl q) ▸ (e ▸ h11 p hp))
        have e2 : t₂.lookup q = none :=
          lookup_eq_none fun p hp e =>
            Bool.false_ne_true ((strLt_irrefl q) ▸ (e ▸ h21 p hp))
        rw [e1, e2]
      · have e := h q
        simpa [List.lookup_cons, beq_false_of_ne hq] using e

theorem setLabel_comm {m : List (String × String)} {k₁ v₁ k₂ v₂ : String}
    (hne : k₁ ≠ k₂) (hs : labelsSorted m) :
    setLabel (setLabel m k₁ v₁) k₂ v₂ = setLabel (setLabel m k₂ v₂) k₁ v₁ := by
  apply labelsSorted_ext
    (labelsSorted_setLabel _ _ _ (labelsSorted_setLabel _ _ _ hs))
    (labelsSorted_setLabel _ _ _ (labelsSorted_setLabel _ _ _ hs))
  intro q
  by_cases hq2 : q = k₂
  · subst hq2
    rw [lookup_setLabel_self, lookup_setLabel_ne _ _ _ _ (Ne.symm hne),
      lookup_setLabel_self]
  · by_cases hq1 : q = k₁
    · subst hq1
      rw [lookup_setLabel_ne _ _ _ _ hq2, lookup_setLabel_self,
        lookup_setLabel_self]
    · rw [lookup_setLabel_ne _ _ _ _ hq2, lookup_setLabel_ne _ _ _ _ hq1,
        lookup_setLabel_ne _ _ _ _ hq1, lookup_setLabel_ne _ _ _ _ hq2]

/-! ### Field-promotion lemmas -/

theorem promoteFields_cons (labels : List (String × String))
    (p : String × FieldValue) (rest : List (String × FieldValue)) :
    promoteFields labels (p :: rest) =
      promoteFields
        (match convertToString p.2 with
          | some s => setLabel labels p.1 s
          | none => labels) rest :=
  rfl

theorem promoteFields_lookup_not_mem (fields : List (String × FieldValue)) :
    ∀ (labels : List (String × String)) (k : String),
      (∀ p ∈ fields, p.1 ≠ k) →
      (promoteFields labels fields).lookup k = labels.lookup k := by
  induction fields with
  | nil => intro labels k _; rfl
  | cons p rest ih =>
    intro labels k h
    rw [promoteFields_cons]
    have hk : p.1 ≠ k := h p (List.mem_cons_self _ _)
    have htail : ∀ p ∈ rest, p.1 ≠ k := fun p hp => h p (List.mem_cons_of_mem _ hp)
    cases hc : convertToString p.2 with
    | none =>
      simp only [hc]
      exact ih labels k htail
    | some s =>
      simp only [hc]
      rw [ih _ k htail]
      exact lookup_setLabel_ne _ _ _ _ (Ne.symm hk)

theorem promoteFields_lookup (fields : List (String × FieldValue)) :
    ∀ (labels : List (String × String)) (k : String) (v : FieldValue) (s : String),
      (fields.map Prod.fst).Nodup → (k, v) ∈ fields →
      convertToString v = some s →
      (promoteFields labels fields).lookup k = some s := by
  induction fields with
  | nil => intro _ _ _ _ _ hmem _; cases hmem
  | cons p rest ih =>
    intro labels k v s hnd hmem hconv
    obtain ⟨k', v'⟩ := p
    have hnd1 : k' ∉ rest.map Prod.fst := (List.nodup_cons.mp (by simpa using hnd)).1
    have hnd2 : (rest.map Prod.fst).Nodup := (List.nodup_cons.mp (by simpa using hnd)).2
    rw [promoteFields_cons]
    rcases List.mem_cons.mp hmem with heq | hrest
    · have hk : k = k' := congrArg Prod.fst heq
      have hv : v = v' := congrArg Prod.snd heq
      subst hk
      subst hv
      simp only [hconv]
      have htail : ∀ p ∈ rest, p.1 ≠ k := by
        intro p hp e
        exact hnd1 (e ▸ List.mem_map_of_mem Prod.fst hp)
      rw [promoteFields_lookup_not_mem rest _ k htail]
      exact lookup_setLabel_self _ _ _
    · exact ih _ k v s hnd2 hrest hconv

/-! ### Stream-grouping lemmas -/

theorem addEntry_nil (x : lokiLogEntry) :
    addEntry [] x = [{ stream := x.labels, values := [entryValue x] }] :=
  rfl

theorem addEntry_cons (s : lokiStream) (streams : List lokiStream)
    (x : lokiLogEntry) :
    addEntry (s :: streams) x =
      if s.stream = x.labels then
        { s with values := s.values ++ [entryValue x] } :: streams
      else
        s :: addEntry streams x :=
  rfl

theorem streamKeys_append (buf : List lokiLogEntry) (x : lokiLogEntry) :
    streamKeys (buf ++ [x]) =
      if x.labels ∈ streamKeys buf then streamKeys buf
      else streamKeys buf ++ [x.labels] := by
  unfold streamKeys
  rw [List.foldl_append]
  rfl

theorem groupStreams_append (buf : List lokiLogEntry) (x : lokiLogEntry) :
    groupStreams (buf ++ [x]) = addEntry (groupStreams buf) x := by
  unfold groupStreams
  rw [List.foldl_append]
  rfl

theorem streamKeys_nodup (buf : List lokiLogEntry) : (streamKeys buf).Nodup := by
  induction buf using List.reverseRecOn with
  | nil => exact List.nodup_nil
  | append_singleton buf x ih =>
    rw [streamKeys_append]
    split
    · exact ih
    · next hm => simp [List.nodup_append, ih, hm]

theorem mem_streamKeys_of_mem (buf : List lokiLogEntry) :
    ∀ e ∈ buf, e.labels ∈ streamKeys buf := by
  induction buf using List.reverseRecOn with
  | nil => intro e he; cases he
  | append_singleton buf x ih =>
    intro e he
    rw [streamKeys_append]
    rcases List.mem_append.mp he with h | h
    · split
      · exact ih e h
      · exact List.mem_append_left _ (ih e h)
    · have hex : e = x := by simpa using h
      subst hex
      split
      · next hm => exact hm
      · exact List.mem_append_right _ (List.mem_singleton.mpr rfl)

theorem exists_mem_of_mem_streamKeys (buf : List lokiLogEntry) :
    ∀ l ∈ streamKeys buf, ∃ e ∈ buf, e.labels = l := by
  induction buf using List.reverseRecOn with
  | nil => intro l hl; cases hl
  | append_singleton buf x ih =>
    intro l hl
    rw [streamKeys_append] at hl
    split at hl
    · obtain ⟨e, he, hel⟩ := ih l hl
      exact ⟨e, List.mem_append_left _ he, hel⟩
    · rcases List.mem_append.mp hl with h | h
      · obtain ⟨e, he, hel⟩ := ih l h
        exact ⟨e, List.mem_append_left _ he, hel⟩
      · exact ⟨x, List.mem_append_right _ (List.mem_singleton.mpr rfl),
          (List.mem_singleton.mp h).symm⟩

theorem addEntry_map_keys (x : lokiLogEntry)
    (V : List (String × String) → List (String × String)) :
    ∀ keys : List (List (String × String)), keys.Nodup →
      addEntry (keys.map fun l => { stream := l, values := V l }) x =
        (if x.labels ∈ keys then
          keys.map fun l =>
            { stream := l
              values := if l = x.labels then V l ++ [entryValue x] else V l }
        else
          (keys.map fun l => { stream := l, values := V l }) ++
            [{ stream := x.labels, values := [entryValue x] }]) := by
  intro keys
  induction keys with
  | nil =>
    intro _
    simp [addEntry_nil]
  | cons l rest ih =>
    intro hnd
    have hnd1 : l ∉ rest := (List.nodup_cons.mp hnd).1
    have hnd2 : rest.Nodup := (List.nodup_cons.mp hnd).2
    rw [List.map_cons, addEntry_cons]
    by_cases hl : l = x.labels
    · subst hl
      rw [if_pos rfl, if_pos (List.mem_cons_self _ _), List.map_cons, if_pos rfl]
      congr 1
      refine (List.map_congr_left fun a ha => ?_).symm
      have : a ≠ x.labels := fun e => hnd1 (e ▸ ha)
      rw [if_neg this]
    · rw [if_neg hl, ih hnd2]
      by_cases hm : x.labels ∈ rest
      · rw [if_pos hm, if_pos (List.mem_cons.mpr (Or.inr hm)), List.map_cons,
          if_neg hl]
      · rw [if_neg hm,
          if_neg (by
            intro hc
            rcases List.mem_cons.mp hc with h | h
            · exact hl h.symm
            · exact hm h)]
        rw [List.cons_append]

theorem groupStreams_eq (buf : List lokiLogEntry) :
    groupStreams buf =
      (streamKeys buf).map fun l =>
        { stream := l
          values := (buf.filter fun e => e.labels = l).map entryValue } := by
  induction buf using List.reverseRecOn with
  | nil => rfl
  | append_singleton buf x ih =>
    rw [groupStreams_append, streamKeys_append, ih,
      addEntry_map_keys x _ (streamKeys buf) (streamKeys_nodup buf)]
    by_cases hm : x.labels ∈ streamKeys buf
    · rw [if_pos hm, if_pos hm]
      refine List.map_congr_left fun l hl => ?_
      by_cases he : l = x.labels
      · subst he
        rw [if_pos rfl]
        congr 1
        rw [List.filter_append, List.map_append]
        congr 1
        simp [List.filter]
      · rw [if_neg he]
        congr 1
        rw [List.filter_append]
        have : ¬(x.labels = l) := fun e => he e.symm
        simp [List.filter, this]
    · rw [if_neg hm, if_neg hm, List.map_append]
      congr 1
      · refine List.map_congr_left fun l hl => ?_
        congr 1
        rw [List.filter_append]
        have : ¬(x.labels = l) := fun e => hm (e ▸ hl)
        simp [List.filter, this]
      · have hnone : buf.filter (fun e => e.labels = x.labels) = [] := by
          rw [List.filter_eq_nil_iff]
          intro e he
          simp only [decide_eq_true_eq]
          exact fun hc => hm (hc ▸ mem_streamKeys_of_mem buf e he)
        simp [List.filter_append, hnone, List.filter]

/-! ### Entry-formatter lemmas -/

theorem Format_level (log : LogRecord) : (Format log).level = log.level := by
  unfold Format; split <;> rfl

theorem Format_fields (log : LogRecord) : (Format log).fields = log.fields := by
  unfold Format; split <;> rfl

theorem Format_error (log : LogRecord) : (Format log).error = log.error := by
  unfold Format; split <;> rfl

theorem Format_withName (log : LogRecord) : (Format log).withName = log.withName := by
  unfold Format; split <;> rfl

theorem Format_timestamp (log : LogRecord) : (Format log).timestamp = log.timestamp := by
  unfold Format; split <;> rfl

theorem Format_name_of_ne (log : LogRecord) (h : log.name ≠ "") :
    (Format log).name = "[" ++ log.name ++ "]: " := by
  unfold Format
  rw [if_pos h]

theorem Format_message_of_ne (log : LogRecord) (h : log.name ≠ "") :
    (Format log).message = "[" ++ log.name ++ "]: " ++ log.message := by
  unfold Format
  rw [if_pos h]

theorem formatEntry_eq_some {cfg : LokiConfig} {log : LogRecord} {e : lokiLogEntry}
    (h : formatEntry cfg log = some e) :
    cfg.enable = true ∧ cfg.level.isEnabled log.level = true ∧
      e = { timestamp := (Format log).timestamp
            level := (Format log).level.string
            labels := buildLabels cfg (Format log)
            line := buildLine (Format log) (buildLabels cfg (Format log)) } := by
  unfold formatEntry at h
  split at h
  · cases h
  · next hcond =>
    simp only [Bool.or_eq_true, Bool.not_eq_true', not_or, Bool.not_eq_false] at hcond
    exact ⟨hcond.1, hcond.2, (Option.some.inj h).symm⟩

/-! ### Claim theorems -/

/-- C1: for every backend and every configuration with retry count ≥ 0,
`sendWithRetry` returns the outcome of exactly the first send attempt —
one attempt is made and no backoff sleep is executed, regardless of the
configured retry count and of whether the first attempt fails. -/
theorem sendWithRetry_only_first_attempt (cfg : LokiConfig) (send : Nat → Bool)
    (h : 0 ≤ cfg.retryCount) :
    sendWithRetry cfg send = { ok := send 0, attempts := 1, sleeps := [] } := by
  unfold sendWithRetry sendLoopIter
  rw [if_pos (by exact_mod_cast h)]
  simp

/-- Witness for C1: the default-style configuration (retry count 3) with
an always-failing backend still yields one failed attempt and no sleeps. -/
theorem sendWithRetry_only_first_attempt_witness :
    (0 : Int) ≤ cfgEx.retryCount ∧
      sendWithRetry cfgEx sendFalse = { ok := false, attempts := 1, sleeps := [] } :=
  ⟨by decide, sendWithRetry_only_first_attempt cfgEx sendFalse (by decide)⟩

/-- C2: at the failing input — retry budget 3, a backend failing the
first attempt and succeeding on every later one — the code performs a
single attempt, sleeps zero times and reports failure, where the claimed
retry/backoff behaviour demands two attempts, one sleep of
`retryDelay × 1`, and overall success. -/
theorem sendWithRetry_never_retries :
    sendWithRetry cfgEx sendFailFirst = { ok := false, attempts := 1, sleeps := [] } ∧
      sendFailFirst 1 = true := by
  exact ⟨by decide, by decide⟩

/-- C6: the final label `level` equals the stringified severity of the
record, overwriting anything the static labels, the structured fields or
the logger name contributed under that key. -/
theorem level_label_is_severity (cfg : LokiConfig) (log : LogRecord)
    (e : lokiLogEntry) (h : formatEntry cfg log = some e) :
    e.labels.lookup "level" = some log.level.string := by
  obtain ⟨-, -, rfl⟩ := formatEntry_eq_some h
  show (buildLabels cfg (Format log)).lookup "level" = some log.level.string
  unfold buildLabels
  rw [Format_level]
  exact lookup_setLabel_self _ _ _

/-- Witness for C6: a record with structured field `level=x` still gets
label `level = "debug"`, the record's actual severity string. -/
theorem level_label_is_severity_witness :
    formatEntry cfgEx recLevel = some entLevelEx ∧
      entLevelEx.labels.lookup "level" = some recLevel.level.string :=
  ⟨by decide, level_label_is_severity cfgEx recLevel entLevelEx (by decide)⟩

/-- C8: a record submitted while the adapter is disabled or with a
severity below the configured minimum is dropped before any other work:
no entry is formatted and `Log` leaves the adapter state unchanged. -/
theorem disabled_or_filtered_noop (cfg : LokiConfig) (st : AdapterState)
    (log : LogRecord)
    (h : cfg.enable = false ∨ cfg.level.isEnabled log.level = false) :
    formatEntry cfg log = none ∧ Log cfg st log = (st, false) := by
  have hcond : (!cfg.enable || !cfg.level.isEnabled log.level) = true := by
    rcases h with h | h <;> simp [h]
  have hf : formatEntry cfg log = none := by
    unfold formatEntry
    rw [if_pos hcond]
  refine ⟨hf, ?_⟩
  unfold Log
  rw [hf]

/-- Witness for C8: a disabled adapter drops a record that would
otherwise produce an entry, leaving the state untouched. -/
theorem disabled_or_filtered_noop_witness :
    cfgDisabled.enable = false ∧
      (formatEntry cfgDisabled recField = none ∧
        Log cfgDisabled stEmptyBuf recField = (stEmptyBuf, false)) :=
  ⟨by decide, disabled_or_filtered_noop cfgDisabled stEmptyBuf recField (Or.inl (by decide))⟩

/-- C9: the constructed adapter's ingest queue capacity is the batch
size threshold times 10, and enqueueing is non-blocking: when the queue
already holds capacity-many entries, a record that formats to an entry
is dropped with the overflow diagnostic (flag `true`) and `Log` returns
with the state unchanged. -/
theorem queue_capacity_and_overflow (cfg : LokiConfig) (now : Int)
    (st : AdapterState) (log : LogRecord) (e : lokiLogEntry)
    (hfull : st.queue.length = st.queueCap)
    (hf : formatEntry cfg log = some e) :
    (newAdapterState cfg now).queueCap = cfg.batchSize * 10 ∧
      Log cfg st log = (st, true) := by
  refine ⟨rfl, ?_⟩
  unfold Log
  rw [hf]
  simp [hfull]

/-- Witness for C9: a queue at capacity 1 drops the next entry. -/
theorem queue_capacity_and_overflow_witness :
    (stFull.queue.length = stFull.queueCap ∧
        formatEntry cfgEx recField = some entFieldEx) ∧
      ((newAdapterState cfgEx 0).queueCap = cfgEx.batchSize * 10 ∧
        Log cfgEx stFull recField = (stFull, true)) :=
  ⟨⟨by decide, by decide⟩,
    queue_capacity_and_overflow cfgEx 0 stFull recField entFieldEx (by decide) (by decide)⟩

/-- C10: flushing with an empty buffer performs no send and leaves the
whole adapter state — buffer, queue and last-flush timestamp —
unchanged. -/
theorem flush_empty_buffer_noop (cfg : LokiConfig) (send : Nat → Bool)
    (now : Int) (st : AdapterState) (h : st.buffer = []) :
    flush cfg send now st = (st, none) := by
  unfold flush
  rw [if_pos (by simp [h])]

/-- Witness for C10 on a concrete state with queued entries, a nonzero
last-flush instant and an empty buffer. -/
theorem flush_empty_buffer_noop_witness :
    stEmptyBuf.buffer = [] ∧
      flush cfgEx sendFalse 99 stEmptyBuf = (stEmptyBuf, none) :=
  ⟨by decide, flush_empty_buffer_noop cfgEx sendFalse 99 stEmptyBuf (by decide)⟩

/-- C3 counterexample: with static label `a=1` and structured field
`a=2` the resulting entry label `a` is `"2"`, not `"1"` as the claim
("later keys never overwrite") demands. -/
theorem field_overwrites_static_counterexample :
    (formatEntry cfgEx recField).map (fun e => e.labels.lookup "a") = some (some "2") ∧
      (formatEntry cfgEx recField).map (fun e => e.labels.lookup "a") ≠ some (some "1") :=
  ⟨by decide, by decide⟩

/-- C3 (amended): label derivation proceeds in order — static labels,
then primitive structured fields, then `logger_name`, then `level` — and
at a key collision each later step *overwrites* the earlier value: any
primitive field `(k, v)` whose key is distinct from the later keys
`logger_name` and `level` ends up as label `k ↦ stringified v`, whatever
the static labels held at `k`; in particular static `a=1` with field
`a=2` yields label `a = "2"`. -/
theorem field_label_overwrites_static (cfg : LokiConfig) (log : LogRecord)
    (e : lokiLogEntry) (k : String) (v : FieldValue) (s : String)
    (hfmt : formatEntry cfg log = some e)
    (hnd : (log.fields.map Prod.fst).Nodup)
    (hmem : (k, v) ∈ log.fields)
    (hconv : convertToString v = some s)
    (hk1 : k ≠ "logger_name") (hk2 : k ≠ "level") :
    e.labels.lookup k = some s := by
  obtain ⟨-, -, rfl⟩ := formatEntry_eq_some hfmt
  show (buildLabels cfg (Format log)).lookup k = some s
  simp only [buildLabels]
  rw [lookup_setLabel_ne _ _ _ _ hk2]
  rw [Format_fields] at *
  split
  · rw [lookup_setLabel_ne _ _ _ _ hk1]
    exact promoteFields_lookup _ _ k v s hnd hmem hconv
  · exact promoteFields_lookup _ _ k v s hnd hmem hconv

/-- Witness for C3 at static `a=1`, field `a=2`. -/
theorem field_label_overwrites_static_witness :
    (formatEntry cfgEx recField = some entFieldEx ∧
        ("a", FieldValue.int 2) ∈ recField.fields) ∧
      entFieldEx.labels.lookup "a" = some "2" :=
  ⟨⟨by decide, by decide⟩,
    field_label_overwrites_static cfgEx recField entFieldEx "a" (.int 2) "2"
      (by decide) (by decide) (by decide) (by decide) (by decide) (by decide)⟩

/-- C4 counterexample: with logger name `svc`, `Format` rewrites the
stored name field itself, and the `logger_name` label receives the
wrapped value `"[svc]: "` instead of the original name `"svc"`. -/
theorem logger_name_label_counterexample :
    (Format recNamed).name ≠ recNamed.name ∧
      (formatEntry cfgEx recNamed).map (fun e => e.labels.lookup "logger_name") =
        some (some "[svc]: ") ∧
      (formatEntry cfgEx recNamed).map (fun e => e.labels.lookup "logger_name") ≠
        some (some "svc") :=
  ⟨by decide, by decide, by decide⟩

/-- C4 (amended): for a record with a non-empty logger name, `Format`
rewrites the stored name field to `"[<name>]: "` and prepends that to
the message; consequently the `logger_name` label, when set, equals the
wrapped form of the original name, not the original name. -/
theorem format_wraps_name (cfg : LokiConfig) (log : LogRecord) (e : lokiLogEntry)
    (hfmt : formatEntry cfg log = some e)
    (hw : log.withName = true) (hn : log.name ≠ "") :
    (Format log).message = "[" ++ log.name ++ "]: " ++ log.message ∧
      (Format log).name = "[" ++ log.name ++ "]: " ∧
      e.labels.lookup "logger_name" = some ("[" ++ log.name ++ "]: ") := by
  obtain ⟨-, -, rfl⟩ := formatEntry_eq_some hfmt
  refine ⟨Format_message_of_ne log hn, Format_name_of_ne log hn, ?_⟩
  have hname : (Format log).name ≠ "" := by
    rw [Format_name_of_ne log hn]
    intro he
    have hl := congrArg String.length he
    rw [String.length_append, String.length_append] at hl
    have h1 : ("[" : String).length = 1 := rfl
    have h2 : ("]: " : String).length = 3 := rfl
    have h3 : ("" : String).length = 0 := rfl
    omega
  show (buildLabels cfg (Format log)).lookup "logger_name" = _
  simp only [buildLabels]
  rw [lookup_setLabel_ne _ _ _ _ (by decide : ("logger_name" : String) ≠ "level")]
  rw [if_pos (show ((Format log).withName && decide ((Format log).name ≠ "")) = true by
    simp [Format_withName, hw, hname])]
  rw [Format_name_of_ne log hn]
  exact lookup_setLabel_self _ _ _

/-- Witness for C4 at name `svc`. -/
theorem format_wraps_name_witness :
    formatEntry cfgEx recNamed = some entNamedEx ∧
      ((Format recNamed).message = "[" ++ recNamed.name ++ "]: " ++ recNamed.message ∧
        (Format recNamed).name = "[" ++ recNamed.name ++ "]: " ∧
        entNamedEx.labels.lookup "logger_name" =
          some ("[" ++ recNamed.name ++ "]: ")) :=
  ⟨by decide, format_wraps_name cfgEx recNamed entNamedEx (by decide) (by decide) (by decide)⟩

/-- Helper: the only string of length zero is the empty string. -/
theorem string_eq_empty_of_length_eq_zero {s : String} (h : s.length = 0) :
    s = "" := by
  cases s with
  | mk data =>
    cases data with
    | nil => rfl
    | cons c cs => simp [String.length] at h

/-- C5 counterexample: a record with an empty message and error `boom`
produces the line `"Error: boom"`, not the claimed
`message ++ " - Error: " ++ error` (which here is `" - Error: boom"`). -/
theorem error_line_empty_message_counterexample :
    (formatEntry cfgEx recErr).map lokiLogEntry.line = some "Error: boom" ∧
      (formatEntry cfgEx recErr).map lokiLogEntry.line ≠
        some (recErr.message ++ " - Error: " ++ "boom") :=
  ⟨by decide, by decide⟩

/-- C5 (amended): for every record carrying an error and no structured
fields, the line is the (possibly name-prefixed) message followed by
`" - Error: "` and the error text when that message is non-empty, and
exactly `"Error: "` followed by the error text (no `" - "` separator)
when the message is empty. -/
theorem error_line (cfg : LokiConfig) (log : LogRecord) (e : lokiLogEntry)
    (err : String) (hfmt : formatEntry cfg log = some e)
    (herr : log.error = some err) (hfields : log.fields = []) :
    e.line =
      if 0 < (Format log).message.length then
        (Format log).message ++ " - Error: " ++ err
      else
        "Error: " ++ err := by
  obtain ⟨-, -, rfl⟩ := formatEntry_eq_some hfmt
  show buildLine (Format log) (buildLabels cfg (Format log)) = _
  have he : (Format log).error = some err := by rw [Format_error, herr]
  have hf : (Format log).fields = [] := by rw [Format_fields, hfields]
  simp only [buildLine, he, hf, List.filter_nil, List.isEmpty_nil, if_true]
  split
  · next hpos =>
    congr 1
    rw [String.append_assoc]
    congr 1
  · next hneg =>
    have hm : (Format log).message = "" :=
      string_eq_empty_of_length_eq_zero (by omega)
    rw [hm]
    rfl

/-- Witness for C5 at a non-empty message. -/
theorem error_line_witness :
    (formatEntry cfgEx recMsgErr = some entMsgErrEx ∧
        recMsgErr.error = some "boom" ∧ recMsgErr.fields = []) ∧
      entMsgErrEx.line =
        (if 0 < (Format recMsgErr).message.length then
          (Format recMsgErr).message ++ " - Error: " ++ "boom"
        else
          "Error: " ++ "boom") :=
  ⟨⟨by decide, by decide, by decide⟩,
    error_line cfgEx recMsgErr entMsgErrEx "boom" (by decide) (by decide) (by decide)⟩

/-- C7: on every flushed buffer, (a) each stream's value list is exactly
the `(timestamp, line)` pairs of the buffered entries whose label map
equals the stream's label set, in arrival order; (b) distinct streams
have distinct label sets; (c) every buffered entry lands in a stream
keyed by its own label map — so two entries share a stream iff their
label maps are structurally equal; and (d) the canonical label maps are
insertion-order independent: on sorted maps, assignments of distinct
keys commute. -/
theorem flush_grouping (buf : List lokiLogEntry) :
    (∀ s ∈ groupStreams buf,
        s.values = (buf.filter fun e => e.labels = s.stream).map entryValue) ∧
      ((groupStreams buf).map lokiStream.stream).Nodup ∧
      (∀ e ∈ buf, ∃ s ∈ groupStreams buf, s.stream = e.labels) ∧
      (∀ s ∈ groupStreams buf, ∃ e ∈ buf, e.labels = s.stream) ∧
      (∀ (m : List (String × String)) (k₁ v₁ k₂ v₂ : String), k₁ ≠ k₂ →
        labelsSorted m →
        setLabel (setLabel m k₁ v₁) k₂ v₂ = setLabel (setLabel m k₂ v₂) k₁ v₁) := by
  refine ⟨?_, ?_, ?_, ?_, fun m k₁ v₁ k₂ v₂ h hs => setLabel_comm h hs⟩
  · intro s hs
    rw [groupStreams_eq] at hs
    obtain ⟨l, hl, rfl⟩ := List.mem_map.mp hs
    rfl
  · rw [groupStreams_eq, List.map_map]
    have hid : (lokiStream.stream ∘ fun l =>
        ({ stream := l
           values := (buf.filter fun e => e.labels = l).map entryValue } : lokiStream)) =
        fun l => l := rfl
    rw [hid]
    simpa using streamKeys_nodup buf
  · intro e he
    rw [groupStreams_eq]
    exact ⟨_, List.mem_map_of_mem _ (mem_streamKeys_of_mem buf e he), rfl⟩
  · intro s hs
    rw [groupStreams_eq] at hs
    obtain ⟨l, hl, rfl⟩ := List.mem_map.mp hs
    exact exists_mem_of_mem_streamKeys buf l hl

/-- Witness for C7 on a three-entry buffer whose first and third entries
share a label set: their stream holds exactly those two value pairs, in
arrival order. -/
theorem flush_grouping_witness :
    streamEx.values = (bufEx.filter fun e => e.labels = streamEx.stream).map entryValue :=
  (flush_grouping bufEx).1 streamEx (by decide)

end Gologloki
